import Mathlib

/-!
Shallow embedding of the frequency-domain signal-processing core of the
repository (`Backend/utils/signal_processing.py`, class `SignalProcessor`),
together with the caller-side validation of
`Backend/blueprints/base_mode.py` (`process_signal`).

Conventions of the embedding:
* Python floats are embedded as exact real numbers `ℝ`; complex values as `ℂ`.
* Band edges, slider gains and the sample rate are embedded as `ℚ` (every
  float is a rational, and this keeps the mask computations decidable).
* Python lists / numpy 1-d arrays are Lean `List`s; in-range indexing `a[k]`
  is embedded as `List.getD k 0`; the numpy whole-array update
  `mask[indices] *= gain` is embedded functionally (the mask is a function
  `ℕ → ℚ`, materialised with `List.range`).
* `np.array(rows).T` on a rectangular array is index transposition, embedded
  as `matrix[j][i] = rows[i][j]`.
-/

open Complex

/-- `2 ** math.ceil(math.log2 n)` — the next power of two `≥ n`
(`signal_processing.py`, line 15). -/
def nextPow2 (n : ℕ) : ℕ := 2 ^ Nat.clog 2 n

/-- The Python slice `x[::2]` (elements at even indices). -/
def evens : List ℂ → List ℂ
  | [] => []
  | [a] => [a]
  | a :: _ :: t => a :: evens t

/-- The Python slice `x[1::2]` (elements at odd indices). -/
def odds (x : List ℂ) : List ℂ := evens x.tail

/-- `np.pad(x, (0, next_power - n))` — zero-pad up to the next power of two
(`signal_processing.py`, lines 16-18; a no-op when the length is already a
power of two). -/
def padPow2 (x : List ℂ) : List ℂ :=
  x ++ List.replicate (nextPow2 x.length - x.length) 0

/-- The twiddle factor `np.exp(-2j * np.pi * t / n)`
(`signal_processing.py`, line 24). -/
noncomputable def twiddle (n t : ℕ) : ℂ :=
  Complex.exp (-2 * Complex.I * (Real.pi : ℂ) * (t : ℂ) / (n : ℂ))

theorem length_evens : ∀ x : List ℂ, (evens x).length = (x.length + 1) / 2
  | [] => by simp [evens]
  | [_] => by simp [evens]
  | _ :: _ :: t => by
    simp only [evens, List.length_cons, length_evens t]
    omega

theorem length_odds (x : List ℂ) : (odds x).length = x.length / 2 := by
  cases x with
  | nil => rfl
  | cons a t => simp only [odds, List.tail_cons, length_evens, List.length_cons]

theorem le_nextPow2 (n : ℕ) : n ≤ nextPow2 n := Nat.le_pow_clog (by norm_num) n

theorem nextPow2_pow (m : ℕ) : nextPow2 (2 ^ m) = 2 ^ m := by
  unfold nextPow2
  rw [Nat.clog_pow 2 m (by norm_num)]

theorem nextPow2_pos (n : ℕ) : 0 < nextPow2 n := Nat.pos_pow_of_pos _ (by norm_num)

theorem nextPow2_eq_two_pow (n : ℕ) : nextPow2 n = 2 ^ Nat.clog 2 n := rfl

theorem clog_pos_of_two_le {n : ℕ} (h : 2 ≤ n) : 0 < Nat.clog 2 n :=
  Nat.clog_pos (by norm_num) h

theorem half_nextPow2_lt {n : ℕ} (h : 2 ≤ n) : (nextPow2 n + 1) / 2 < n := by
  have hc : 0 < Nat.clog 2 n := clog_pos_of_two_le h
  have hlt : 2 ^ (Nat.clog 2 n - 1) < n := Nat.pow_pred_clog_lt_self (by norm_num) h
  have : (nextPow2 n + 1) / 2 = 2 ^ (Nat.clog 2 n - 1) := by
    unfold nextPow2
    rcases Nat.exists_eq_add_of_lt hc with ⟨c, hcEq⟩
    have : Nat.clog 2 n = c + 1 := by omega
    rw [this]
    simp [pow_succ]
    omega
  omega

theorem length_padPow2 (x : List ℂ) : (padPow2 x).length = nextPow2 x.length := by
  unfold padPow2
  have := le_nextPow2 x.length
  simp only [List.length_append, List.length_replicate]
  omega

theorem length_evens_padPow2_lt {x : List ℂ} (h : ¬ x.length ≤ 1) :
    (evens (padPow2 x)).length < x.length := by
  rw [length_evens, length_padPow2]
  exact half_nextPow2_lt (by omega)

theorem length_odds_padPow2_lt {x : List ℂ} (h : ¬ x.length ≤ 1) :
    (odds (padPow2 x)).length < x.length := by
  rw [length_odds, length_padPow2]
  have h1 := half_nextPow2_lt (n := x.length) (by omega)
  omega

/-- `SignalProcessor.custom_fft` (`signal_processing.py`, lines 8-25):
radix-2 decimation-in-time Cooley-Tukey FFT. Inputs of length `≤ 1` are
returned unchanged; otherwise the input is zero-padded to the next power of
two, split into even- and odd-indexed halves that are transformed
recursively, and the halves are combined with twiddle factors. -/
noncomputable def custom_fft (x : List ℂ) : List ℂ :=
  if x.length ≤ 1 then x
  else
    let xp := padPow2 x
    let n := xp.length
    let even := custom_fft (evens xp)
    let odd := custom_fft (odds xp)
    let T := (List.range (n / 2)).map fun k => twiddle n k * odd.getD k 0
    ((List.range (n / 2)).map fun k => even.getD k 0 + T.getD k 0) ++
      (List.range (n / 2)).map fun k => even.getD k 0 - T.getD k 0
termination_by x.length
decreasing_by
  · exact length_evens_padPow2_lt (by assumption)
  · exact length_odds_padPow2_lt (by assumption)

/-- `SignalProcessor.custom_ifft` (`signal_processing.py`, lines 28-33):
`np.conjugate(custom_fft(np.conjugate(x))) / n`, with `n = len(x)` the
*unpadded* input length. -/
noncomputable def custom_ifft (x : List ℂ) : List ℂ :=
  ((custom_fft (x.map (starRingEnd ℂ))).map
    fun z => (starRingEnd ℂ) z / (x.length : ℂ))

/-- The length of `custom_fft`'s output as a function of the input length. -/
def fftLen (n : ℕ) : ℕ := if n ≤ 1 then n else nextPow2 n

/-- Reference definition: the discrete Fourier transform
`X[k] = Σ_j x[j]·exp(-2πi·jk/n)`, used to state and prove correctness of
`custom_fft`. -/
noncomputable def dft (x : List ℂ) : List ℂ :=
  (List.range x.length).map fun k =>
    ∑ j ∈ Finset.range x.length, x.getD j 0 * twiddle x.length (j * k)

theorem getD_map_range {α : Type} {n k : ℕ} (h : k < n) (f : ℕ → α) (d : α) :
    ((List.range n).map f).getD k d = f k := by
  rw [List.getD_eq_getElem _ _ (by simpa using h), List.getElem_map, List.getElem_range]

theorem getD_tail {α : Type} (l : List α) (k : ℕ) (d : α) :
    l.tail.getD k d = l.getD (k + 1) d := by
  cases l with
  | nil => simp
  | cons a t => simp [List.getD_cons_succ]

theorem getD_evens : ∀ (l : List ℂ) (k : ℕ) (d : ℂ),
    (evens l).getD k d = l.getD (2 * k) d
  | [], k, d => by simp [evens]
  | [a], k, d => by
    cases k with
    | zero => simp [evens]
    | succ m =>
      have h2 : 2 * (m + 1) = (2 * m + 1) + 1 := by ring
      simp [evens, h2, List.getD_cons_succ, List.getD_nil]
  | a :: b :: t, k, d => by
    cases k with
    | zero => simp [evens]
    | succ m =>
      have h2 : 2 * (m + 1) = (2 * m + 1) + 1 := by ring
      simp only [evens, List.getD_cons_succ, h2, getD_evens t m d]

theorem getD_odds (l : List ℂ) (k : ℕ) (d : ℂ) :
    (odds l).getD k d = l.getD (2 * k + 1) d := by
  unfold odds
  rw [getD_evens, getD_tail]

theorem sum_range_even_odd (n : ℕ) (f : ℕ → ℂ) :
    ∑ j ∈ Finset.range (2 * n), f j =
      (∑ j ∈ Finset.range n, f (2 * j)) + ∑ j ∈ Finset.range n, f (2 * j + 1) := by
  induction n with
  | zero => simp
  | succ m ih =>
    have h2 : 2 * (m + 1) = (2 * m + 1) + 1 := by ring
    rw [h2, Finset.sum_range_succ, Finset.sum_range_succ, Finset.sum_range_succ,
      Finset.sum_range_succ, ih]
    ring

theorem twiddle_zero (n : ℕ) : twiddle n 0 = 1 := by
  simp [twiddle]

theorem twiddle_add (n a b : ℕ) : twiddle n (a + b) = twiddle n a * twiddle n b := by
  unfold twiddle
  rw [← Complex.exp_add]
  congr 1
  push_cast
  ring

theorem twiddle_two_mul {h : ℕ} (hh : h ≠ 0) (t : ℕ) :
    twiddle (2 * h) (2 * t) = twiddle h t := by
  unfold twiddle
  congr 1
  have hC : (h : ℂ) ≠ 0 := Nat.cast_ne_zero.mpr hh
  field_simp
  ring

theorem twiddle_mul_self {h : ℕ} (hh : h ≠ 0) (j : ℕ) : twiddle h (j * h) = 1 := by
  unfold twiddle
  have hC : (h : ℂ) ≠ 0 := Nat.cast_ne_zero.mpr hh
  have : -2 * Complex.I * (Real.pi : ℂ) * ((j * h : ℕ) : ℂ) / (h : ℂ) =
      ((-(j : ℤ) : ℤ) : ℂ) * (2 * (Real.pi : ℂ) * Complex.I) := by
    push_cast
    field_simp
    ring
  rw [this, Complex.exp_int_mul_two_pi_mul_I]

theorem twiddle_half {h : ℕ} (hh : h ≠ 0) : twiddle (2 * h) h = -1 := by
  unfold twiddle
  have hC : (h : ℂ) ≠ 0 := Nat.cast_ne_zero.mpr hh
  have : -2 * Complex.I * (Real.pi : ℂ) * (h : ℂ) / ((2 * h : ℕ) : ℂ) =
      -((Real.pi : ℂ) * Complex.I) := by
    push_cast
    field_simp
    ring
  rw [this, Complex.exp_neg, Complex.exp_pi_mul_I]
  norm_num

theorem map_getD_self {α : Type} (l : List α) (d : α) :
    (List.range l.length).map (fun k => l.getD k d) = l := by
  apply List.ext_getElem (by simp)
  intro i h1 h2
  rw [List.getElem_map, List.getElem_range, List.getD_eq_getElem _ _ h2]

theorem length_dft (x : List ℂ) : (dft x).length = x.length := by
  simp [dft]

theorem custom_fft_of_le_one {x : List ℂ} (h : x.length ≤ 1) : custom_fft x = x := by
  rw [custom_fft, if_pos h]

theorem custom_fft_rec {x : List ℂ} (h : 2 ≤ x.length) :
    custom_fft x =
      ((List.range (nextPow2 x.length / 2)).map fun k =>
        (custom_fft (evens (padPow2 x))).getD k 0 +
          twiddle (nextPow2 x.length) k * (custom_fft (odds (padPow2 x))).getD k 0) ++
      (List.range (nextPow2 x.length / 2)).map fun k =>
        (custom_fft (evens (padPow2 x))).getD k 0 -
          twiddle (nextPow2 x.length) k * (custom_fft (odds (padPow2 x))).getD k 0 := by
  conv_lhs => rw [custom_fft]
  rw [if_neg (by omega)]
  simp only [length_padPow2]
  congr 1 <;> apply List.map_congr_left <;> intro k hk <;>
    rw [getD_map_range (List.mem_range.mp hk)]

theorem dft_singleton (a : ℂ) : dft [a] = [a] := by
  simp [dft, twiddle_zero]

theorem dft_getD {x : List ℂ} {k : ℕ} (hk : k < x.length) :
    (dft x).getD k 0 =
      ∑ j ∈ Finset.range x.length, x.getD j 0 * twiddle x.length (j * k) := by
  unfold dft
  rw [getD_map_range hk]

theorem dft_getD_evens {x : List ℂ} {h : ℕ} (hx : x.length = 2 * h) {k : ℕ} (hk : k < h) :
    (dft (evens x)).getD k 0 =
      ∑ j ∈ Finset.range h, x.getD (2 * j) 0 * twiddle h (j * k) := by
  have hlen : (evens x).length = h := by rw [length_evens, hx]; omega
  unfold dft
  rw [hlen, getD_map_range hk]
  exact Finset.sum_congr rfl fun j _ => by rw [getD_evens]

theorem dft_getD_odds {x : List ℂ} {h : ℕ} (hx : x.length = 2 * h) {k : ℕ} (hk : k < h) :
    (dft (odds x)).getD k 0 =
      ∑ j ∈ Finset.range h, x.getD (2 * j + 1) 0 * twiddle h (j * k) := by
  have hlen : (odds x).length = h := by rw [length_odds, hx]; omega
  unfold dft
  rw [hlen, getD_map_range hk]
  exact Finset.sum_congr rfl fun j _ => by rw [getD_odds]

theorem tw_even_lo {h : ℕ} (hh : h ≠ 0) (j k : ℕ) :
    twiddle (2 * h) (2 * j * k) = twiddle h (j * k) := by
  rw [show 2 * j * k = 2 * (j * k) by ring, twiddle_two_mul hh]

theorem tw_odd_lo {h : ℕ} (hh : h ≠ 0) (j k : ℕ) :
    twiddle (2 * h) ((2 * j + 1) * k) = twiddle h (j * k) * twiddle (2 * h) k := by
  rw [show (2 * j + 1) * k = 2 * (j * k) + k by ring, twiddle_add, twiddle_two_mul hh]

theorem tw_even_hi {h : ℕ} (hh : h ≠ 0) (j k : ℕ) :
    twiddle (2 * h) (2 * j * (h + k)) = twiddle h (j * k) := by
  rw [show 2 * j * (h + k) = 2 * (j * h + j * k) by ring, twiddle_two_mul hh,
    twiddle_add, twiddle_mul_self hh, one_mul]

theorem tw_odd_hi {h : ℕ} (hh : h ≠ 0) (j k : ℕ) :
    twiddle (2 * h) ((2 * j + 1) * (h + k)) =
      -(twiddle h (j * k) * twiddle (2 * h) k) := by
  rw [show (2 * j + 1) * (h + k) = (2 * (j * h + j * k) + h) + k by ring,
    twiddle_add, twiddle_add, twiddle_two_mul hh, twiddle_add, twiddle_mul_self hh,
    one_mul, twiddle_half hh]
  ring

theorem dft_getD_lo {x : List ℂ} {h : ℕ} (hh : h ≠ 0) (hx : x.length = 2 * h)
    {k : ℕ} (hk : k < h) :
    (dft x).getD k 0 =
      (dft (evens x)).getD k 0 + twiddle (2 * h) k * (dft (odds x)).getD k 0 := by
  rw [dft_getD (by omega), hx, sum_range_even_odd h
    (fun j => x.getD j 0 * twiddle (2 * h) (j * k)),
    dft_getD_evens hx hk, dft_getD_odds hx hk]
  congr 1
  · exact Finset.sum_congr rfl fun j _ => by rw [tw_even_lo hh]
  · rw [Finset.mul_sum]
    exact Finset.sum_congr rfl fun j _ => by rw [tw_odd_lo hh]; ring

theorem dft_getD_hi {x : List ℂ} {h : ℕ} (hh : h ≠ 0) (hx : x.length = 2 * h)
    {k : ℕ} (hk : k < h) :
    (dft x).getD (h + k) 0 =
      (dft (evens x)).getD k 0 - twiddle (2 * h) k * (dft (odds x)).getD k 0 := by
  rw [dft_getD (by omega), hx, sum_range_even_odd h
    (fun j => x.getD j 0 * twiddle (2 * h) (j * (h + k))),
    dft_getD_evens hx hk, dft_getD_odds hx hk]
  rw [sub_eq_add_neg]
  congr 1
  · exact Finset.sum_congr rfl fun j _ => by rw [tw_even_hi hh]
  · rw [Finset.mul_sum, ← Finset.sum_neg_distrib]
    exact Finset.sum_congr rfl fun j _ => by rw [tw_odd_hi hh]; ring

theorem dft_butterfly {x : List ℂ} {h : ℕ} (hh : h ≠ 0) (hx : x.length = 2 * h) :
    dft x =
      ((List.range h).map fun k =>
        (dft (evens x)).getD k 0 + twiddle (2 * h) k * (dft (odds x)).getD k 0) ++
      (List.range h).map fun k =>
        (dft (evens x)).getD k 0 - twiddle (2 * h) k * (dft (odds x)).getD k 0 := by
  have hlen : (dft x).length = 2 * h := by rw [length_dft, hx]
  have base : dft x =
      ((List.range h).map fun k => (dft x).getD k 0) ++
        (List.range h).map ((fun k => (dft x).getD k 0) ∘ fun i => h + i) := by
    conv_lhs => rw [← map_getD_self (dft x) 0]
    rw [hlen, show 2 * h = h + h by ring, List.range_add, List.map_append, List.map_map]
  rw [base]
  congr 1
  · exact List.map_congr_left fun k hk => dft_getD_lo hh hx (List.mem_range.mp hk)
  · apply List.map_congr_left
    intro k hk
    simpa [Function.comp] using dft_getD_hi hh hx (List.mem_range.mp hk)

theorem padPow2_of_pow {x : List ℂ} (h : nextPow2 x.length = x.length) :
    padPow2 x = x := by
  unfold padPow2
  rw [h]
  simp

theorem custom_fft_eq_dft (m : ℕ) : ∀ x : List ℂ, x.length = 2 ^ m → custom_fft x = dft x := by
  induction m with
  | zero =>
    intro x hx
    rcases List.length_eq_one.mp (by simpa using hx) with ⟨a, rfl⟩
    rw [custom_fft_of_le_one (by simp), dft_singleton]
  | succ m ih =>
    intro x hx
    have hh : (2 : ℕ) ^ m ≠ 0 := by positivity
    have hx2 : x.length = 2 * 2 ^ m := by rw [hx]; ring
    have hlen2 : 2 ≤ x.length := by
      rw [hx2]
      have : 1 ≤ 2 ^ m := Nat.one_le_two_pow
      omega
    have hnext : nextPow2 x.length = x.length := by rw [hx, nextPow2_pow]
    have hpad : padPow2 x = x := padPow2_of_pow hnext
    have hev : (evens x).length = 2 ^ m := by rw [length_evens, hx2]; omega
    have hod : (odds x).length = 2 ^ m := by rw [length_odds, hx2]; omega
    rw [custom_fft_rec hlen2, hpad, hnext, hx2, ih _ hev, ih _ hod,
      show 2 * 2 ^ m / 2 = 2 ^ m by omega]
    exact (dft_butterfly hh hx2).symm

theorem getD_map_conj (l : List ℂ) (j : ℕ) :
    (l.map (starRingEnd ℂ)).getD j 0 = (starRingEnd ℂ) (l.getD j 0) := by
  rw [List.getD_eq_getElem?_getD, List.getD_eq_getElem?_getD, List.getElem?_map]
  cases l[j]? with
  | none => simp
  | some a => simp

theorem sum_root_unity {n : ℕ} (hn : n ≠ 0) {l k : ℕ} (hl : l < n) (hk : k < n) :
    ∑ j ∈ Finset.range n,
      (Complex.exp (2 * (Real.pi : ℂ) * Complex.I * ((l : ℂ) - (k : ℂ)) / (n : ℂ))) ^ j =
      if l = k then (n : ℂ) else 0 := by
  have hnC : (n : ℂ) ≠ 0 := Nat.cast_ne_zero.mpr hn
  by_cases hlk : l = k
  · subst hlk
    simp
  · rw [if_neg hlk]
    have hpow : (Complex.exp (2 * (Real.pi : ℂ) * Complex.I * ((l : ℂ) - (k : ℂ)) / (n : ℂ))) ^ n
        = 1 := by
      rw [← Complex.exp_nat_mul]
      have harg : (n : ℂ) * (2 * (Real.pi : ℂ) * Complex.I * ((l : ℂ) - (k : ℂ)) / (n : ℂ)) =
          (((l : ℤ) - (k : ℤ) : ℤ) : ℂ) * (2 * (Real.pi : ℂ) * Complex.I) := by
        push_cast
        field_simp
        ring
      rw [harg, Complex.exp_int_mul_two_pi_mul_I]
    have hne : Complex.exp (2 * (Real.pi : ℂ) * Complex.I * ((l : ℂ) - (k : ℂ)) / (n : ℂ)) ≠ 1 := by
      intro h1
      rcases Complex.exp_eq_one_iff.mp h1 with ⟨m, hm⟩
      have h2πI : 2 * (Real.pi : ℂ) * Complex.I ≠ 0 := by
        refine mul_ne_zero (mul_ne_zero two_ne_zero ?_) Complex.I_ne_zero
        exact_mod_cast Complex.ofReal_ne_zero.mpr Real.pi_ne_zero
      have hcast : (l : ℂ) - (k : ℂ) = (m : ℂ) * (n : ℂ) := by
        apply mul_left_cancel₀ h2πI
        have hm2 := congrArg (fun z => z * (n : ℂ)) hm
        simp only at hm2
        rw [div_mul_cancel₀ _ hnC] at hm2
        rw [hm2]
        ring
      have hZ : (l : ℤ) - (k : ℤ) = m * (n : ℤ) := by exact_mod_cast hcast
      rcases lt_trichotomy m 0 with hneg | rfl | hpos
      · have hm1 : m ≤ -1 := by omega
        have : m * (n : ℤ) ≤ -1 * (n : ℤ) := by
          apply mul_le_mul_of_nonneg_right hm1
          positivity
        omega
      · simp at hZ
        omega
      · have hm1 : 1 ≤ m := by omega
        have : 1 * (n : ℤ) ≤ m * (n : ℤ) := by
          apply mul_le_mul_of_nonneg_right hm1
          positivity
        omega
    rw [geom_sum_eq hne, hpow]
    simp

theorem conj_twiddle_mul (n l j k : ℕ) :
    (starRingEnd ℂ) (twiddle n (l * j)) * twiddle n (j * k) =
      (Complex.exp (2 * (Real.pi : ℂ) * Complex.I * ((l : ℂ) - (k : ℂ)) / (n : ℂ))) ^ j := by
  unfold twiddle
  rw [← Complex.exp_conj, ← Complex.exp_add, ← Complex.exp_nat_mul]
  congr 1
  rw [map_div₀]
  simp only [map_mul, map_neg, Complex.conj_I, map_ofNat, map_natCast, Complex.conj_ofReal]
  push_cast
  ring

theorem dft_conj_dft_getD {y : List ℂ} (hn : y.length ≠ 0) {k : ℕ} (hk : k < y.length) :
    (dft ((dft y).map (starRingEnd ℂ))).getD k 0 =
      (y.length : ℂ) * (starRingEnd ℂ) (y.getD k 0) := by
  have hlen : ((dft y).map (starRingEnd ℂ)).length = y.length := by simp [length_dft]
  rw [dft_getD (by rw [hlen]; exact hk), hlen]
  have step1 : ∀ j ∈ Finset.range y.length,
      ((dft y).map (starRingEnd ℂ)).getD j 0 * twiddle y.length (j * k) =
        ∑ l ∈ Finset.range y.length, (starRingEnd ℂ) (y.getD l 0) *
          ((starRingEnd ℂ) (twiddle y.length (l * j)) * twiddle y.length (j * k)) := by
    intro j hj
    rw [getD_map_conj, dft_getD (List.mem_range.mp hj), map_sum, Finset.sum_mul]
    exact Finset.sum_congr rfl fun l _ => by rw [map_mul]; ring
  rw [Finset.sum_congr rfl step1, Finset.sum_comm]
  have step2 : ∀ l ∈ Finset.range y.length,
      (∑ j ∈ Finset.range y.length, (starRingEnd ℂ) (y.getD l 0) *
        ((starRingEnd ℂ) (twiddle y.length (l * j)) * twiddle y.length (j * k))) =
        if l = k then (starRingEnd ℂ) (y.getD l 0) * (y.length : ℂ) else 0 := by
    intro l hl
    rw [← Finset.mul_sum]
    have horth : ∑ j ∈ Finset.range y.length,
        (starRingEnd ℂ) (twiddle y.length (l * j)) * twiddle y.length (j * k) =
        if l = k then (y.length : ℂ) else 0 := by
      rw [Finset.sum_congr rfl fun j _ => conj_twiddle_mul y.length l j k]
      exact sum_root_unity hn (List.mem_range.mp hl) hk
    rw [horth]
    by_cases h : l = k <;> simp [h]
  rw [Finset.sum_congr rfl step2, Finset.sum_ite_eq' (Finset.range y.length) k]
  rw [if_pos (Finset.mem_range.mpr hk)]
  ring

theorem nextPow2_idem (n : ℕ) : nextPow2 (nextPow2 n) = nextPow2 n := nextPow2_pow _

theorem nextPow2_even {n : ℕ} (h : 2 ≤ n) :
    nextPow2 n / 2 + nextPow2 n / 2 = nextPow2 n := by
  have hc : 0 < Nat.clog 2 n := clog_pos_of_two_le h
  rcases Nat.exists_eq_add_of_lt hc with ⟨c, hcEq⟩
  have hclog : Nat.clog 2 n = c + 1 := by omega
  have : nextPow2 n = 2 ^ c * 2 := by rw [nextPow2_eq_two_pow, hclog, pow_succ]
  omega

theorem length_custom_fft (x : List ℂ) : (custom_fft x).length = fftLen x.length := by
  by_cases h : x.length ≤ 1
  · rw [custom_fft_of_le_one h, fftLen, if_pos h]
  · rw [custom_fft_rec (by omega), fftLen, if_neg h]
    simp only [List.length_append, List.length_map, List.length_range]
    exact nextPow2_even (by omega)

theorem custom_fft_eq_fft_pad {x : List ℂ} (h : 2 ≤ x.length) :
    custom_fft x = custom_fft (padPow2 x) := by
  have h2 : 2 ≤ (padPow2 x).length := by
    rw [length_padPow2]
    exact le_trans h (le_nextPow2 _)
  have e1 : nextPow2 (padPow2 x).length = nextPow2 x.length := by
    rw [length_padPow2, nextPow2_idem]
  have e2 : padPow2 (padPow2 x) = padPow2 x :=
    padPow2_of_pow (by rw [length_padPow2, nextPow2_idem])
  rw [custom_fft_rec h, custom_fft_rec h2, e1, e2]

theorem custom_ifft_dft {y : List ℂ} {c : ℕ} (hy : y.length = 2 ^ c) :
    custom_ifft (dft y) = y := by
  have hn : y.length ≠ 0 := by rw [hy]; positivity
  have hnC : (y.length : ℂ) ≠ 0 := Nat.cast_ne_zero.mpr hn
  unfold custom_ifft
  have hlen1 : (dft y).length = y.length := length_dft y
  have hmap : ((dft y).map (starRingEnd ℂ)).length = y.length := by simp [hlen1]
  have hfft : custom_fft ((dft y).map (starRingEnd ℂ)) = dft ((dft y).map (starRingEnd ℂ)) :=
    custom_fft_eq_dft c _ (by rw [hmap, hy])
  rw [hlen1, hfft]
  apply List.ext_getElem
  · simp [length_dft, hlen1]
  · intro i h1 h2
    rw [List.getElem_map]
    have hidx : i < (dft ((dft y).map (starRingEnd ℂ))).length := by
      rw [length_dft, hmap]
      exact h2
    rw [← List.getD_eq_getElem _ 0 hidx, dft_conj_dft_getD hn h2, map_mul, map_natCast,
      Complex.conj_conj, List.getD_eq_getElem _ _ h2]
    field_simp

theorem map_re_map_ofReal (S : List ℝ) : (S.map Complex.ofReal).map Complex.re = S := by
  rw [List.map_map]
  have : (Complex.re ∘ Complex.ofReal) = id := funext fun r => Complex.ofReal_re r
  rw [this, List.map_id]

/-- Shared round-trip lemma: `real(custom_ifft(custom_fft(S)))` is `S`
zero-padded to the transform length. -/
theorem fft_roundtrip (S : List ℝ) :
    (custom_ifft (custom_fft (S.map Complex.ofReal))).map Complex.re =
      S ++ List.replicate ((custom_fft (S.map Complex.ofReal)).length - S.length) 0 := by
  by_cases hlen : S.length ≤ 1
  · match S with
    | [] =>
      rw [show (List.map Complex.ofReal [] : List ℂ) = [] from rfl,
        custom_fft_of_le_one (by simp)]
      unfold custom_ifft
      rw [show (List.map (starRingEnd ℂ) [] : List ℂ) = [] from rfl,
        custom_fft_of_le_one (by simp)]
      simp
    | [a] =>
      rw [show (List.map Complex.ofReal [a] : List ℂ) = [(a : ℂ)] from rfl,
        custom_fft_of_le_one (by simp)]
      unfold custom_ifft
      rw [show ([(a : ℂ)].map (starRingEnd ℂ)) = [(a : ℂ)] from by
        simp [Complex.conj_ofReal], custom_fft_of_le_one (by simp)]
      simp
    | a :: b :: t => exact absurd hlen (by simp)
  · have hx2 : 2 ≤ (S.map Complex.ofReal).length := by simp; omega
    have hfp : custom_fft (S.map Complex.ofReal) =
        custom_fft (padPow2 (S.map Complex.ofReal)) := custom_fft_eq_fft_pad hx2
    have hplen : (padPow2 (S.map Complex.ofReal)).length =
        2 ^ Nat.clog 2 (S.map Complex.ofReal).length := by
      rw [length_padPow2]; rfl
    have hdft : custom_fft (padPow2 (S.map Complex.ofReal)) =
        dft (padPow2 (S.map Complex.ofReal)) := custom_fft_eq_dft _ _ hplen
    rw [hfp, hdft, custom_ifft_dft hplen]
    have hlen2 : (dft (padPow2 (S.map Complex.ofReal))).length - S.length =
        nextPow2 S.length - S.length := by
      rw [length_dft, length_padPow2]
      simp
    rw [hlen2]
    unfold padPow2
    rw [List.map_append, map_re_map_ofReal]
    simp

/-- `np.fft.fftfreq(n, 1/sample_rate)[k]` (`signal_processing.py`, line 46):
`k·sr/n` for the first half of the bins, `(k−n)·sr/n` for the mirrored
negative-frequency bins. -/
def fftfreq (n : ℕ) (sr : ℚ) (k : ℕ) : ℚ :=
  if 2 * k < n then (k : ℚ) * sr / n else ((k : ℚ) - n) * sr / n

/-- One equalizer slider as consumed by `apply_multi_band_equalizer`:
`{'name': ..., 'frequency_bands': [(low_freq, high_freq), ...]}`. -/
structure SliderConfig where
  name : String
  frequency_bands : List (ℚ × ℚ)

/-- One `(band, gain)` step of the mask loop (`signal_processing.py`,
lines 57-67): multiply the mask by `gain` on the bins with
`low ≤ freqs[k] ≤ high`, then on the bins with `-high ≤ freqs[k] ≤ -low`. -/
def bandUpdate (n : ℕ) (sr gain : ℚ) (band : ℚ × ℚ) (mask : ℕ → ℚ) : ℕ → ℚ :=
  fun k =>
    let v := if band.1 ≤ fftfreq n sr k ∧ fftfreq n sr k ≤ band.2
      then mask k * gain else mask k
    if -band.2 ≤ fftfreq n sr k ∧ fftfreq n sr k ≤ -band.1 then v * gain else v

/-- The frequency mask built by the slider loop of
`apply_multi_band_equalizer` (`signal_processing.py`, lines 49-67), as a
function of the bin index: start from all-ones, then for each
`(slider_config, gain)` produced by `zip(sliders_config, slider_values)`
apply every band of that slider. -/
def buildMaskFun (n : ℕ) (sr : ℚ) (cfgs : List SliderConfig) (gains : List ℚ) : ℕ → ℚ :=
  (cfgs.zip gains).foldl
    (fun mask cg => cg.1.frequency_bands.foldl (fun m b => bandUpdate n sr cg.2 b m) mask)
    fun _ => 1

/-- The frequency mask as the length-`n` array `frequency_mask`. -/
def buildMask (n : ℕ) (sr : ℚ) (cfgs : List SliderConfig) (gains : List ℚ) : List ℚ :=
  (List.range n).map (buildMaskFun n sr cfgs gains)

/-- `np.max(np.abs(l))`, with value `0` for the empty array (the source only
compares it with `0` and divides by it when positive). -/
def maxAbs (l : List ℝ) : ℝ := l.foldr (fun a r => max |a| r) 0

/-- `SignalProcessor.apply_multi_band_equalizer`
(`signal_processing.py`, lines 36-88): FFT, frequency mask, elementwise
multiply, inverse FFT, real part, and peak normalization when the peak is
positive. Note that the slider/gain pairing is `zip(sliders_config,
slider_values)` — there is no length validation in this function. -/
noncomputable def apply_multi_band_equalizer (signal : List ℝ)
    (sliders_config : List SliderConfig) (slider_values : List ℚ)
    (sample_rate : ℚ) : List ℝ :=
  let fft_result := custom_fft (signal.map Complex.ofReal)
  let frequency_mask := buildMask fft_result.length sample_rate sliders_config slider_values
  let modified_fft := (fft_result.zip frequency_mask).map fun p => p.1 * (p.2 : ℂ)
  let processed_signal := (custom_ifft modified_fft).map Complex.re
  if 0 < maxAbs processed_signal then processed_signal.map fun t => t / maxAbs processed_signal
  else processed_signal

/-- The validation wrapper `BaseModeBlueprint.process_signal`
(`base_mode.py`, lines 112-134): raises when the slider configuration is
empty or when the number of slider values does not match the number of
configured sliders, and only then calls the equalizer. -/
noncomputable def process_signal_eq (signal : List ℝ) (sliders : List SliderConfig)
    (slider_values : List ℚ) (sample_rate : ℚ) : Except String (List ℝ) :=
  if sliders.isEmpty then Except.error "No slider configuration found"
  else if slider_values.length ≠ sliders.length then
    Except.error "Slider values count does not match settings count"
  else Except.ok (apply_multi_band_equalizer signal sliders slider_values sample_rate)

/-- `np.hanning(M)`: the Hann window `0.5 − 0.5·cos(2πj/(M−1))`,
with `np.hanning(1) = [1]`. -/
noncomputable def hanning (M : ℕ) : List ℝ :=
  if M = 1 then [1]
  else (List.range M).map fun j : ℕ =>
    1 / 2 - 1 / 2 * Real.cos (2 * Real.pi * (j : ℝ) / ((M : ℝ) - 1))

/-- One frame of `SignalProcessor.compute_spectrogram`
(`signal_processing.py`, lines 112-116): slice, Hann window, FFT,
magnitudes of the first `window_size // 2` bins. -/
noncomputable def spectro_frame (signal : List ℝ) (window_size hop_size i : ℕ) : List ℝ :=
  let window := (((signal.drop (i * hop_size)).take window_size).zip
    (hanning window_size)).map fun p => p.1 * p.2
  let fft_frame := (custom_fft (window.map Complex.ofReal)).map Complex.abs
  (fft_frame.take (window_size / 2)).map fun t => |t|

/-- `SignalProcessor.compute_spectrogram` (`signal_processing.py`,
lines 91-120): zero-pad the signal up to one window, frame it with the hop
size, transform each frame, and return the transposed magnitude matrix with
the time and frequency axes. -/
noncomputable def compute_spectrogram (signal : List ℝ) (window_size hop_size : ℕ)
    (sample_rate : ℚ) : List (List ℝ) × List ℚ × List ℚ :=
  let signalP := if signal.length < window_size then
      signal ++ List.replicate (window_size - signal.length) 0 else signal
  let num_frames := (signalP.length - window_size) / hop_size + 1
  let time_axis := (List.range num_frames).map fun i => ((i * hop_size : ℕ) : ℚ) / sample_rate
  let freq_axis := (List.range (window_size / 2)).map fun j => fftfreq window_size sample_rate j
  let spectrogram_array := (List.range (window_size / 2)).map fun j =>
    (List.range num_frames).map fun i =>
      (spectro_frame signalP window_size hop_size i).getD j 0
  (spectrogram_array, time_axis, freq_axis)

/-- The two multiplications a single `(band, gain)` pair contributes to mask
entry `k`: one for the positive-frequency index set and one for the
mirrored negative-frequency index set. -/
def bandFactor (n : ℕ) (sr gain : ℚ) (band : ℚ × ℚ) (k : ℕ) : ℚ :=
  (if band.1 ≤ fftfreq n sr k ∧ fftfreq n sr k ≤ band.2 then gain else 1) *
  (if -band.2 ≤ fftfreq n sr k ∧ fftfreq n sr k ≤ -band.1 then gain else 1)

theorem bandUpdate_apply (n : ℕ) (sr g : ℚ) (b : ℚ × ℚ) (m : ℕ → ℚ) (k : ℕ) :
    bandUpdate n sr g b m k = m k * bandFactor n sr g b k := by
  unfold bandUpdate bandFactor
  by_cases h1 : b.1 ≤ fftfreq n sr k ∧ fftfreq n sr k ≤ b.2 <;>
    by_cases h2 : -b.2 ≤ fftfreq n sr k ∧ fftfreq n sr k ≤ -b.1 <;>
    simp [h1, h2] <;> ring

theorem foldl_bandUpdate_apply (n : ℕ) (sr g : ℚ) (bs : List (ℚ × ℚ)) :
    ∀ (m : ℕ → ℚ) (k : ℕ),
    (bs.foldl (fun m b => bandUpdate n sr g b m) m) k =
      m k * (bs.map fun b => bandFactor n sr g b k).prod := by
  induction bs with
  | nil => intro m k; simp
  | cons b t ih =>
    intro m k
    rw [List.foldl_cons, ih, bandUpdate_apply]
    simp only [List.map_cons, List.prod_cons]
    ring

theorem buildMaskFun_apply (n : ℕ) (sr : ℚ) (cfgs : List SliderConfig)
    (gains : List ℚ) (k : ℕ) :
    buildMaskFun n sr cfgs gains k =
      ((cfgs.zip gains).map fun cg =>
        (cg.1.frequency_bands.map fun b => bandFactor n sr cg.2 b k).prod).prod := by
  suffices hgen : ∀ (ps : List (SliderConfig × ℚ)) (m : ℕ → ℚ),
      (ps.foldl (fun mask cg =>
        cg.1.frequency_bands.foldl (fun m b => bandUpdate n sr cg.2 b m) mask) m) k =
        m k * (ps.map fun cg =>
          (cg.1.frequency_bands.map fun b => bandFactor n sr cg.2 b k).prod).prod by
    unfold buildMaskFun
    rw [hgen (cfgs.zip gains) (fun _ => 1)]
    simp
  intro ps
  induction ps with
  | nil => intro m; simp
  | cons p t ih =>
    intro m
    rw [List.foldl_cons, ih, foldl_bandUpdate_apply]
    simp only [List.map_cons, List.prod_cons]
    ring

theorem length_buildMask (n : ℕ) (sr : ℚ) (cfgs : List SliderConfig) (gains : List ℚ) :
    (buildMask n sr cfgs gains).length = n := by
  simp [buildMask]

theorem getD_buildMask {n k : ℕ} (hk : k < n) (sr : ℚ) (cfgs : List SliderConfig)
    (gains : List ℚ) (d : ℚ) :
    (buildMask n sr cfgs gains).getD k d = buildMaskFun n sr cfgs gains k := by
  unfold buildMask
  rw [getD_map_range hk]

theorem getD_replicate {α : Type} (n k : ℕ) (a d : α) :
    (List.replicate n a).getD k d = if k < n then a else d := by
  rw [List.getD_eq_getElem?_getD]
  by_cases h : k < n
  · simp [List.getElem?_replicate, h]
  · rw [if_neg h]
    rw [List.getElem?_eq_none (by simpa using h)]
    rfl

theorem nextPow2_halves {n : ℕ} (h : 2 ≤ n) :
    nextPow2 n / 2 = 2 ^ (Nat.clog 2 n - 1) ∧
      (nextPow2 n + 1) / 2 = 2 ^ (Nat.clog 2 n - 1) := by
  have hc := clog_pos_of_two_le h
  rcases Nat.exists_eq_add_of_lt hc with ⟨c, hcEq⟩
  have hclog : Nat.clog 2 n = c + 1 := by omega
  have hval : nextPow2 n = 2 ^ c * 2 := by rw [nextPow2_eq_two_pow, hclog, pow_succ]
  rw [hclog]
  simp only [Nat.add_sub_cancel]
  omega

theorem nextPow2_min {n : ℕ} : ∀ c, n ≤ 2 ^ c → nextPow2 n ≤ 2 ^ c := by
  intro c hc
  rw [nextPow2_eq_two_pow]
  exact Nat.pow_le_pow_right (by norm_num) ((Nat.le_pow_iff_clog_le (by norm_num)).mp hc)

/-- C6: `custom_fft` returns inputs of length `≤ 1` unchanged; for inputs of
length `≥ 2` the output length is the least power of two that is `≥` the
input length (the padded length, not the original one); being a total Lean
function, it never fails on any input. -/
theorem C6_fft_length_contract (x : List ℂ) :
    (x.length ≤ 1 → custom_fft x = x) ∧
    (2 ≤ x.length → (custom_fft x).length = nextPow2 x.length) ∧
    x.length ≤ nextPow2 x.length ∧
    (∃ m, nextPow2 x.length = 2 ^ m) ∧
    ∀ c, x.length ≤ 2 ^ c → nextPow2 x.length ≤ 2 ^ c := by
  refine ⟨fun h => custom_fft_of_le_one h, fun h => ?_, le_nextPow2 _,
    ⟨Nat.clog 2 x.length, rfl⟩, fun c hc => nextPow2_min c hc⟩
  rw [length_custom_fft, fftLen, if_neg (by omega)]

/-- C6 witness: at the concrete input `[1, 2, 3]` the transform length is
the next power of two, `nextPow2 3`. -/
theorem C6_fft_length_contract_witness :
    (2 : ℕ) ≤ ([1, 2, 3] : List ℂ).length ∧
    (custom_fft [1, 2, 3]).length = nextPow2 ([1, 2, 3] : List ℂ).length :=
  ⟨by norm_num, (C6_fft_length_contract [1, 2, 3]).2.1 (by norm_num)⟩

/-- C9: for a spectrum of length `≥ 2`, `custom_ifft` produces the next
power of two many samples (its inner `custom_fft` re-pads) while dividing by
the *original* length; the output length equals the input length exactly
when the input length is a power of two, and the divisor is the unpadded
`len(x)` by definition. -/
theorem C9_ifft_length_quirk (x : List ℂ) (h : 2 ≤ x.length) :
    (custom_ifft x).length = nextPow2 x.length ∧
    ((custom_ifft x).length = x.length ↔ ∃ m, x.length = 2 ^ m) ∧
    custom_ifft x = (custom_fft (x.map (starRingEnd ℂ))).map
      (fun z => (starRingEnd ℂ) z / (x.length : ℂ)) := by
  have hlen : (custom_ifft x).length = nextPow2 x.length := by
    unfold custom_ifft
    rw [List.length_map, length_custom_fft, List.length_map, fftLen, if_neg (by omega)]
  refine ⟨hlen, ⟨fun he => ?_, fun ⟨m, hm⟩ => ?_⟩, rfl⟩
  · have hx : x.length = nextPow2 x.length := by rw [← hlen, he]
    exact ⟨Nat.clog 2 x.length, hx.trans (nextPow2_eq_two_pow x.length)⟩
  · rw [hlen, hm, nextPow2_pow]

/-- C9 witness: a length-3 spectrum comes back with length `nextPow2 3`
(which is not 3, as 3 is not a power of two). -/
theorem C9_ifft_length_quirk_witness :
    (2 : ℕ) ≤ ([1, 1, 1] : List ℂ).length ∧
    (custom_ifft [1, 1, 1]).length = nextPow2 ([1, 1, 1] : List ℂ).length :=
  ⟨by norm_num, ((C9_ifft_length_quirk [1, 1, 1] (by norm_num)).1)⟩

/-- C10: termination structure of `custom_fft` — after the one-time padding
the even- and odd-indexed halves are strictly shorter than the input and
their lengths are again powers of two, and the (total, terminating) function
satisfies its divide-and-conquer recurrence. -/
theorem C10_fft_termination (x : List ℂ) (h : 2 ≤ x.length) :
    (evens (padPow2 x)).length < x.length ∧
    (odds (padPow2 x)).length < x.length ∧
    (∃ m, (evens (padPow2 x)).length = 2 ^ m) ∧
    (∃ m, (odds (padPow2 x)).length = 2 ^ m) ∧
    custom_fft x =
      ((List.range (nextPow2 x.length / 2)).map fun k =>
        (custom_fft (evens (padPow2 x))).getD k 0 +
          twiddle (nextPow2 x.length) k * (custom_fft (odds (padPow2 x))).getD k 0) ++
      (List.range (nextPow2 x.length / 2)).map fun k =>
        (custom_fft (evens (padPow2 x))).getD k 0 -
          twiddle (nextPow2 x.length) k * (custom_fft (odds (padPow2 x))).getD k 0 := by
  have he : (evens (padPow2 x)).length = 2 ^ (Nat.clog 2 x.length - 1) := by
    rw [length_evens, length_padPow2]
    exact (nextPow2_halves h).2
  have ho : (odds (padPow2 x)).length = 2 ^ (Nat.clog 2 x.length - 1) := by
    rw [length_odds, length_padPow2]
    exact (nextPow2_halves h).1
  exact ⟨length_evens_padPow2_lt (by omega), length_odds_padPow2_lt (by omega),
    ⟨_, he⟩, ⟨_, ho⟩, custom_fft_rec h⟩

/-- C10 witness: the termination bounds at the concrete input `[1, 0, 1]`. -/
theorem C10_fft_termination_witness :
    (evens (padPow2 [1, 0, 1])).length < ([1, 0, 1] : List ℂ).length ∧
    (odds (padPow2 [1, 0, 1])).length < ([1, 0, 1] : List ℂ).length :=
  ⟨(C10_fft_termination [1, 0, 1] (by norm_num)).1,
    (C10_fft_termination [1, 0, 1] (by norm_num)).2.1⟩

theorem fftfreq_mirror {n k : ℕ} (sr : ℚ) (hk1 : 1 ≤ k) (hkn : k < n)
    (h2 : 2 * k ≠ n) : fftfreq n sr (n - k) = -fftfreq n sr k := by
  unfold fftfreq
  have hkn' : (k : ℚ) ≤ (n : ℚ) := by exact_mod_cast le_of_lt hkn
  have hcast : ((n - k : ℕ) : ℚ) = (n : ℚ) - (k : ℚ) := by
    push_cast [Nat.cast_sub (le_of_lt hkn)]
    ring
  by_cases hlo : 2 * k < n
  · rw [if_pos hlo, if_neg (by omega), hcast]
    ring
  · rw [if_neg hlo, if_pos (by omega), hcast]
    ring

theorem bandFactor_mirror {n k : ℕ} (sr g : ℚ) (b : ℚ × ℚ) (hk1 : 1 ≤ k)
    (hkn : k < n) (h2 : 2 * k ≠ n) :
    bandFactor n sr g b (n - k) = bandFactor n sr g b k := by
  unfold bandFactor
  rw [fftfreq_mirror sr hk1 hkn h2]
  have e1 : (b.1 ≤ -fftfreq n sr k ∧ -fftfreq n sr k ≤ b.2) ↔
      (-b.2 ≤ fftfreq n sr k ∧ fftfreq n sr k ≤ -b.1) := by
    constructor <;> rintro ⟨u, v⟩ <;> constructor <;> linarith
  have e2 : (-b.2 ≤ -fftfreq n sr k ∧ -fftfreq n sr k ≤ -b.1) ↔
      (b.1 ≤ fftfreq n sr k ∧ fftfreq n sr k ≤ b.2) := by
    constructor <;> rintro ⟨u, v⟩ <;> constructor <;> linarith
  rw [if_congr e1 rfl rfl, if_congr e2 rfl rfl, mul_comm]

/-- C5: the frequency mask is symmetric between bin `k` and its mirror bin
`n − k` for every `k` in `[1, n−1]`: the positive-range test at `k`
coincides with the negative-range test at `n − k` and vice versa (and the
bin `k = n/2` is its own mirror), so both bins accumulate the same total
gain. -/
theorem C5_mask_conjugate_symmetry (n : ℕ) (sr : ℚ) (cfgs : List SliderConfig)
    (gains : List ℚ) (k : ℕ) (hk1 : 1 ≤ k) (hkn : k ≤ n - 1)
    (hg : ∀ g ∈ gains, 0 ≤ g) :
    (buildMask n sr cfgs gains).getD k 1 =
      (buildMask n sr cfgs gains).getD (n - k) 1 := by
  have hklt : k < n := by omega
  by_cases h2 : 2 * k = n
  · have : n - k = k := by omega
    rw [this]
  · rw [getD_buildMask hklt, getD_buildMask (show n - k < n by omega),
      buildMaskFun_apply, buildMaskFun_apply]
    refine congrArg List.prod (List.map_congr_left fun cg _ => ?_)
    refine congrArg List.prod (List.map_congr_left fun b _ => ?_)
    exact (bandFactor_mirror sr cg.2 b hk1 hklt h2).symm

/-- C5 witness: concrete symmetric mask entries at `n = 4`, `k = 1`. -/
theorem C5_mask_conjugate_symmetry_witness :
    (buildMask 4 8 [⟨"band", [(1, 3)]⟩] [2]).getD 1 1 =
      (buildMask 4 8 [⟨"band", [(1, 3)]⟩] [2]).getD 3 1 :=
  C5_mask_conjugate_symmetry 4 8 [⟨"band", [(1, 3)]⟩] [2] 1 (by norm_num)
    (by norm_num) (by decide)

/-- C3 (amended): each mask entry `k` is the product, over the
`zip(sliders, gains)` pairs and each of their bands, of one factor `gain`
when `low ≤ f(k) ≤ high` and one more factor `gain` when
`−high ≤ f(k) ≤ −low`; a bin satisfying both tests (e.g. the DC bin for a
band with `low ≤ 0`) is therefore multiplied by the gain twice per band,
overlapping bands compound multiplicatively in order, and a bin matched by
no band keeps multiplier `1`. -/
theorem C3_mask_entry_amended (n : ℕ) (sr : ℚ) (cfgs : List SliderConfig)
    (gains : List ℚ) (k : ℕ) (hk : k < n) :
    (buildMask n sr cfgs gains).getD k 1 =
      ((cfgs.zip gains).map fun cg =>
        (cg.1.frequency_bands.map fun b =>
          (if b.1 ≤ fftfreq n sr k ∧ fftfreq n sr k ≤ b.2 then cg.2 else 1) *
          (if -b.2 ≤ fftfreq n sr k ∧ fftfreq n sr k ≤ -b.1 then cg.2 else 1)).prod).prod := by
  rw [getD_buildMask hk, buildMaskFun_apply]
  rfl

/-- C3 witness: the amended characterization instantiated at `n = 4`,
`k = 1`. -/
theorem C3_mask_entry_amended_witness :
    (buildMask 4 4 [⟨"bass", [(0, 1)]⟩] [2]).getD 1 1 =
      List.prod ((([⟨"bass", [(0, 1)]⟩] : List SliderConfig).zip ([2] : List ℚ)).map
        fun cg => (cg.1.frequency_bands.map fun b =>
          (if b.1 ≤ fftfreq 4 4 1 ∧ fftfreq 4 4 1 ≤ b.2 then cg.2 else 1) *
          (if -b.2 ≤ fftfreq 4 4 1 ∧ fftfreq 4 4 1 ≤ -b.1 then cg.2 else 1)).prod) :=
  C3_mask_entry_amended 4 4 [⟨"bass", [(0, 1)]⟩] [2] 1 (by norm_num)

/-- The mask entry as the claim's words describe it: multiplied by the gain
exactly once for every band whose `[low, high]` interval contains `|f(k)|`. -/
def specMaskEntry (n : ℕ) (sr : ℚ) (cfgs : List SliderConfig) (gains : List ℚ)
    (k : ℕ) : ℚ :=
  ((cfgs.zip gains).map fun cg =>
    (cg.1.frequency_bands.map fun b =>
      if b.1 ≤ |fftfreq n sr k| ∧ |fftfreq n sr k| ≤ b.2 then cg.2 else 1).prod).prod

/-- C3 counterexample: with transform length 4, sample rate 4, one slider
with band `[0, 1]` and gain 2, the DC bin satisfies both the positive-range
and the negative-range test, so the code multiplies its mask entry by the
gain twice (entry 4), while the claim's once-per-matching-band rule gives 2. -/
theorem C3_mask_double_gain_counterexample :
    (buildMask 4 4 [⟨"bass", [(0, 1)]⟩] [2]).getD 0 1 ≠
      specMaskEntry 4 4 [⟨"bass", [(0, 1)]⟩] [2] 0 ∧
    (buildMask 4 4 [⟨"bass", [(0, 1)]⟩] [2]).getD 0 1 = 4 ∧
    specMaskEntry 4 4 [⟨"bass", [(0, 1)]⟩] [2] 0 = 2 := by
  have h1 : (buildMask 4 4 [⟨"bass", [(0, 1)]⟩] [2]).getD 0 1 = 4 := by
    rw [getD_buildMask (by norm_num), buildMaskFun_apply]
    norm_num [bandFactor, fftfreq]
  have h2 : specMaskEntry 4 4 [⟨"bass", [(0, 1)]⟩] [2] 0 = 2 := by
    norm_num [specMaskEntry, fftfreq]
  exact ⟨by rw [h1, h2]; norm_num, h1, h2⟩

theorem nextPow2_one : nextPow2 1 = 1 := by
  unfold nextPow2
  rw [Nat.clog_one_right]
  norm_num

/-- C2: the real part of `custom_ifft(custom_fft(S))` is exactly `S`
zero-padded to the transform length, which for non-empty `S` is the next
power of two (exact equality in the exact-arithmetic embedding). -/
theorem C2_fft_roundtrip (S : List ℝ) :
    (custom_ifft (custom_fft (S.map Complex.ofReal))).map Complex.re =
      S ++ List.replicate ((custom_fft (S.map Complex.ofReal)).length - S.length) 0 ∧
    (1 ≤ S.length → (custom_fft (S.map Complex.ofReal)).length = nextPow2 S.length) := by
  refine ⟨fft_roundtrip S, fun h1 => ?_⟩
  rw [length_custom_fft, List.length_map]
  by_cases h : S.length ≤ 1
  · have he : S.length = 1 := by omega
    rw [fftLen, if_pos h, he, nextPow2_one]
  · rw [fftLen, if_neg h]

/-- C2 witness: the round trip at the concrete signal `[1, 2]`. -/
theorem C2_fft_roundtrip_witness :
    (custom_ifft (custom_fft (([1, 2] : List ℝ).map Complex.ofReal))).map Complex.re =
      [1, 2] ++ List.replicate
        ((custom_fft (([1, 2] : List ℝ).map Complex.ofReal)).length -
          ([1, 2] : List ℝ).length) 0 ∧
    (custom_fft (([1, 2] : List ℝ).map Complex.ofReal)).length =
      nextPow2 ([1, 2] : List ℝ).length :=
  ⟨(C2_fft_roundtrip [1, 2]).1, (C2_fft_roundtrip [1, 2]).2 (by norm_num)⟩

theorem evens_replicate : ∀ n : ℕ, evens (List.replicate n (0 : ℂ)) =
    List.replicate ((n + 1) / 2) 0
  | 0 => by simp [evens]
  | 1 => by simp [evens, List.replicate_succ]
  | n + 2 => by
    rw [List.replicate_succ, List.replicate_succ]
    show (0 : ℂ) :: evens (List.replicate n 0) = _
    rw [evens_replicate n, show (n + 2 + 1) / 2 = (n + 1) / 2 + 1 by omega,
      List.replicate_succ]

theorem odds_replicate (n : ℕ) : odds (List.replicate n (0 : ℂ)) =
    List.replicate (n / 2) 0 := by
  cases n with
  | zero => simp [odds, evens]
  | succ m =>
    unfold odds
    rw [List.replicate_succ, List.tail_cons, evens_replicate]

theorem padPow2_replicate (n : ℕ) : padPow2 (List.replicate n (0 : ℂ)) =
    List.replicate (nextPow2 n) 0 := by
  unfold padPow2
  rw [List.length_replicate, ← List.replicate_add]
  congr 1
  have := le_nextPow2 n
  omega

theorem getD_replicate_zero (m k : ℕ) : (List.replicate m (0 : ℂ)).getD k 0 = 0 := by
  rw [getD_replicate]
  split <;> rfl

theorem fft_replicate_zero (n : ℕ) :
    custom_fft (List.replicate n (0 : ℂ)) = List.replicate (fftLen n) 0 := by
  induction n using Nat.strong_induction_on with
  | _ n ih =>
    by_cases h : n ≤ 1
    · rw [custom_fft_of_le_one (by simp [h]), fftLen, if_pos h]
    · have h2 : 2 ≤ n := by omega
      have hlen : 2 ≤ (List.replicate n (0 : ℂ)).length := by simpa using h2
      rw [custom_fft_rec hlen]
      simp only [List.length_replicate]
      have hh := nextPow2_halves h2
      have hev : evens (padPow2 (List.replicate n (0 : ℂ))) =
          List.replicate (nextPow2 n / 2) 0 := by
        rw [padPow2_replicate, evens_replicate]
        rw [hh.1, ← hh.2]
      have hod : odds (padPow2 (List.replicate n (0 : ℂ))) =
          List.replicate (nextPow2 n / 2) 0 := by
        rw [padPow2_replicate, odds_replicate]
      have hlt : nextPow2 n / 2 < n := by
        have := half_nextPow2_lt h2
        omega
      have hzero : ∀ k ∈ List.range (nextPow2 n / 2),
          (custom_fft (evens (padPow2 (List.replicate n (0 : ℂ))))).getD k 0 +
            twiddle (nextPow2 n) k *
              (custom_fft (odds (padPow2 (List.replicate n (0 : ℂ))))).getD k 0 = 0 := by
        intro k _
        rw [hev, hod, ih _ hlt, getD_replicate_zero]
        ring
      have hzero2 : ∀ k ∈ List.range (nextPow2 n / 2),
          (custom_fft (evens (padPow2 (List.replicate n (0 : ℂ))))).getD k 0 -
            twiddle (nextPow2 n) k *
              (custom_fft (odds (padPow2 (List.replicate n (0 : ℂ))))).getD k 0 = 0 := by
        intro k _
        rw [hev, hod, ih _ hlt, getD_replicate_zero]
        ring
      rw [List.map_congr_left hzero, List.map_congr_left hzero2]
      rw [List.map_const', List.length_range, ← List.replicate_add,
        nextPow2_even h2, fftLen, if_neg h]

theorem fftLen_idem (n : ℕ) : fftLen (fftLen n) = fftLen n := by
  by_cases h : n ≤ 1
  · have hn : fftLen n = n := by rw [fftLen, if_pos h]
    rw [hn, fftLen, if_pos h]
  · have hn : fftLen n = nextPow2 n := by rw [fftLen, if_neg h]
    have h2 : ¬ nextPow2 n ≤ 1 := by
      have := le_nextPow2 n
      omega
    rw [hn, fftLen, if_neg h2, nextPow2_idem]

theorem ifft_replicate_zero (N : ℕ) :
    custom_ifft (List.replicate N (0 : ℂ)) = List.replicate (fftLen N) 0 := by
  unfold custom_ifft
  rw [List.map_replicate]
  simp only [map_zero]
  rw [fft_replicate_zero, List.map_replicate]
  simp

theorem zip_replicate_zero_mul (l : List ℚ) : ∀ N : ℕ, l.length = N →
    ((List.replicate N (0 : ℂ)).zip l).map (fun p => p.1 * (p.2 : ℂ)) =
      List.replicate N 0 := by
  induction l with
  | nil =>
    intro N h
    simp at h
    subst h
    simp
  | cons q t ih =>
    intro N h
    cases N with
    | zero => simp at h
    | succ M =>
      rw [List.replicate_succ, List.zip_cons_cons, List.map_cons,
        ih M (by simpa using h)]
      simp [List.replicate_succ]

theorem maxAbs_replicate_zero (N : ℕ) : maxAbs (List.replicate N 0) = 0 := by
  induction N with
  | zero => rfl
  | succ M ih =>
    unfold maxAbs at *
    rw [List.replicate_succ, List.foldr_cons, ih]
    simp

/-- C7: the equalizer maps an all-zero signal to an all-zero output of the
padded transform length: the transform of zeros is zero, the masked spectrum
is zero, the reconstruction is zero, its peak is 0, so the normalization
branch is skipped (no division happens) and the zeros are returned as-is. -/
theorem C7_all_zero_signal (n : ℕ) (cfgs : List SliderConfig) (gains : List ℚ)
    (sr : ℚ) (h : 0 < n) :
    apply_multi_band_equalizer (List.replicate n 0) cfgs gains sr =
      List.replicate (fftLen n) 0 := by
  unfold apply_multi_band_equalizer
  simp only [List.map_replicate, Complex.ofReal_zero]
  rw [fft_replicate_zero, List.length_replicate,
    zip_replicate_zero_mul (buildMask (fftLen n) sr cfgs gains) (fftLen n)
      (length_buildMask (fftLen n) sr cfgs gains),
    ifft_replicate_zero, fftLen_idem, List.map_replicate, Complex.zero_re,
    maxAbs_replicate_zero, if_neg (lt_irrefl 0)]

/-- C7 witness: a concrete all-zero signal of length 2 comes back as zeros. -/
theorem C7_all_zero_signal_witness :
    apply_multi_band_equalizer (List.replicate 2 (0 : ℝ)) [] [] 2 =
      List.replicate (fftLen 2) 0 :=
  C7_all_zero_signal 2 [] [] 2 (by norm_num)

theorem buildMaskFun_ones (n : ℕ) (sr : ℚ) (cfgs : List SliderConfig) (k : ℕ) :
    buildMaskFun n sr cfgs (List.replicate cfgs.length 1) k = 1 := by
  rw [buildMaskFun_apply]
  apply List.prod_eq_one
  intro x hx
  rcases List.mem_map.mp hx with ⟨cg, hcg, rfl⟩
  obtain ⟨c, g⟩ := cg
  have hg : g = 1 := List.eq_of_mem_replicate (List.of_mem_zip hcg).2
  apply List.prod_eq_one
  intro y hy
  rcases List.mem_map.mp hy with ⟨b, hb, rfl⟩
  rw [hg]
  simp [bandFactor]

theorem zip_mask_ones (X : List ℂ) : ∀ mask : List ℚ, mask.length = X.length →
    (∀ q ∈ mask, q = 1) →
    (X.zip mask).map (fun p => p.1 * (p.2 : ℂ)) = X := by
  induction X with
  | nil => intro mask _ _; simp
  | cons a t ih =>
    intro mask hlen hones
    cases mask with
    | nil => simp at hlen
    | cons q m =>
      rw [List.zip_cons_cons, List.map_cons,
        ih m (by simpa using hlen) (fun x hx => hones x (by simp [hx]))]
      rw [hones q (by simp)]
      simp

theorem maxAbs_append_zero (S : List ℝ) (p : ℕ) :
    maxAbs (S ++ List.replicate p 0) = maxAbs S := by
  induction S with
  | nil =>
    rw [List.nil_append, maxAbs_replicate_zero]
    rfl
  | cons a t ih =>
    unfold maxAbs at *
    rw [List.cons_append, List.foldr_cons, ih, List.foldr_cons]

/-- C4 (amended): with one gain of `1.0` per slider the mask is all ones and
the equalizer returns the zero-padded input *divided by its peak absolute
amplitude* whenever that peak is positive (the unconditional normalization
step); in particular it reproduces the padded input exactly when the peak
is 1 (or the signal is all-zero), but not for general amplitudes. -/
theorem C4_identity_equalizer_amended (S : List ℝ) (cfgs : List SliderConfig) (sr : ℚ) :
    apply_multi_band_equalizer S cfgs (List.replicate cfgs.length 1) sr =
      (if 0 < maxAbs S then
        (S ++ List.replicate ((custom_fft (S.map Complex.ofReal)).length - S.length) 0).map
          (fun t => t / maxAbs S)
      else S ++ List.replicate ((custom_fft (S.map Complex.ofReal)).length - S.length) 0) ∧
    (maxAbs S = 1 →
      apply_multi_band_equalizer S cfgs (List.replicate cfgs.length 1) sr =
        S ++ List.replicate ((custom_fft (S.map Complex.ofReal)).length - S.length) 0) := by
  have hmod : ((custom_fft (S.map Complex.ofReal)).zip
      (buildMask (custom_fft (S.map Complex.ofReal)).length sr cfgs
        (List.replicate cfgs.length 1))).map (fun p => p.1 * (p.2 : ℂ)) =
      custom_fft (S.map Complex.ofReal) := by
    apply zip_mask_ones
    · exact length_buildMask _ _ _ _
    · intro q hq
      rcases List.mem_map.mp hq with ⟨k, _, rfl⟩
      exact buildMaskFun_ones _ _ _ _
  have main : apply_multi_band_equalizer S cfgs (List.replicate cfgs.length 1) sr =
      (if 0 < maxAbs S then
        (S ++ List.replicate ((custom_fft (S.map Complex.ofReal)).length - S.length) 0).map
          (fun t => t / maxAbs S)
      else S ++ List.replicate ((custom_fft (S.map Complex.ofReal)).length - S.length) 0) := by
    unfold apply_multi_band_equalizer
    simp only
    rw [hmod, fft_roundtrip S, maxAbs_append_zero]
  refine ⟨main, fun h1 => ?_⟩
  rw [main, if_pos (by rw [h1]; norm_num), h1]
  simp

/-- C4 witness: for the peak-1 signal `[1]` and an empty slider set the
identity-gain equalizer reproduces the padded input. -/
theorem C4_identity_equalizer_amended_witness :
    maxAbs [1] = 1 ∧
    apply_multi_band_equalizer [1] [] (List.replicate ([] : List SliderConfig).length 1) 2 =
      [1] ++ List.replicate ((custom_fft (([1] : List ℝ).map Complex.ofReal)).length -
        ([1] : List ℝ).length) 0 :=
  ⟨by norm_num [maxAbs], (C4_identity_equalizer_amended [1] [] 2).2 (by norm_num [maxAbs])⟩

/-- Shared concrete evaluation: on the one-sample signal `[2]` with a single
slider (band `[0, 1]`) whose gain list starts with `1`, the equalizer
returns `[1]`: the mask is the identity, the reconstruction is `[2]`, and
peak normalization divides by 2. Any further gains in the list are dropped
by `zip`. -/
theorem apply_eval_single (rest : List ℚ) :
    apply_multi_band_equalizer [2] [⟨"a", [(0, 1)]⟩] (1 :: rest) 2 = [1] := by
  unfold apply_multi_band_equalizer
  simp only
  rw [show ([2] : List ℝ).map Complex.ofReal = [(2 : ℂ)] from by norm_num]
  rw [custom_fft_of_le_one (by norm_num)]
  rw [show ([(2 : ℂ)]).length = 1 from rfl]
  have hmask : buildMask 1 2 [⟨"a", [(0, 1)]⟩] (1 :: rest) = [1] := by
    unfold buildMask
    rw [show List.range 1 = [0] from rfl, List.map_cons, List.map_nil]
    have : buildMaskFun 1 2 [⟨"a", [(0, 1)]⟩] (1 :: rest) 0 = 1 := by
      rw [buildMaskFun_apply]
      rw [show ([⟨"a", [(0, 1)]⟩] : List SliderConfig).zip (1 :: rest) =
        [(⟨"a", [(0, 1)]⟩, 1)] from by simp [List.zip_cons_cons]]
      simp [bandFactor]
    rw [this]
  rw [hmask]
  rw [show ([(2 : ℂ)].zip ([1] : List ℚ)).map (fun p => p.1 * (p.2 : ℂ)) = [(2 : ℂ)]
    from by norm_num]
  have hifft : custom_ifft [(2 : ℂ)] = [(2 : ℂ)] := by
    unfold custom_ifft
    rw [show ([(2 : ℂ)].map (starRingEnd ℂ)) = [(2 : ℂ)] from by simp [map_ofNat]]
    rw [custom_fft_of_le_one (by norm_num)]
    simp [map_ofNat]
  rw [hifft]
  rw [show ([(2 : ℂ)].map Complex.re) = [(2 : ℝ)] from by simp]
  have hmax : maxAbs [(2 : ℝ)] = 2 := by
    unfold maxAbs
    simp
  rw [hmax, if_pos (by norm_num)]
  norm_num

/-- C4 counterexample: the signal `[2]` (peak 2) with identity gains comes
back as `[1]`, not as the padded input `[2]` — peak normalization rescales
it. -/
theorem C4_identity_equalizer_counterexample :
    apply_multi_band_equalizer [2] [⟨"a", [(0, 1)]⟩] [1] 2 = [1] ∧
    apply_multi_band_equalizer [2] [⟨"a", [(0, 1)]⟩] [1] 2 ≠ [2] := by
  have h := apply_eval_single []
  exact ⟨h, by rw [h]; intro hc; simp at hc⟩

theorem zip_take_eq : ∀ (cfgs : List SliderConfig) (vals : List ℚ),
    cfgs.zip (vals.take cfgs.length) = cfgs.zip vals := by
  intro cfgs
  induction cfgs with
  | nil => intro vals; simp
  | cons c t ih =>
    intro vals
    cases vals with
    | nil => simp
    | cons v m =>
      rw [List.length_cons, List.take_succ_cons, List.zip_cons_cons,
        List.zip_cons_cons, ih m]

theorem take_zip_eq : ∀ (cfgs : List SliderConfig) (vals : List ℚ),
    (cfgs.take vals.length).zip vals = cfgs.zip vals := by
  intro cfgs
  induction cfgs with
  | nil => intro vals; simp
  | cons c t ih =>
    intro vals
    cases vals with
    | nil => simp
    | cons v m =>
      rw [List.length_cons, List.take_succ_cons, List.zip_cons_cons,
        List.zip_cons_cons, ih m]

/-- C1 (amended): `apply_multi_band_equalizer` itself performs no length
validation — `zip(sliders_config, slider_values)` silently drops the excess
of the longer list and the computation proceeds normally; the length check
lives in the caller `process_signal`, which fails (returning an error, not a
result) whenever the counts differ, before invoking the equalizer. -/
theorem C1_length_mismatch_amended (signal : List ℝ) (cfgs : List SliderConfig)
    (vals : List ℚ) (sr : ℚ) :
    apply_multi_band_equalizer signal cfgs vals sr =
      apply_multi_band_equalizer signal cfgs (vals.take cfgs.length) sr ∧
    apply_multi_band_equalizer signal cfgs vals sr =
      apply_multi_band_equalizer signal (cfgs.take vals.length) vals sr ∧
    (vals.length ≠ cfgs.length →
      ∀ out, process_signal_eq signal cfgs vals sr ≠ Except.ok out) := by
  refine ⟨?_, ?_, ?_⟩
  · unfold apply_multi_band_equalizer
    simp only
    rw [show buildMask (custom_fft (signal.map Complex.ofReal)).length sr cfgs
        (vals.take cfgs.length) =
        buildMask (custom_fft (signal.map Complex.ofReal)).length sr cfgs vals from by
      unfold buildMask buildMaskFun
      rw [zip_take_eq]]
  · unfold apply_multi_band_equalizer
    simp only
    rw [show buildMask (custom_fft (signal.map Complex.ofReal)).length sr
        (cfgs.take vals.length) vals =
        buildMask (custom_fft (signal.map Complex.ofReal)).length sr cfgs vals from by
      unfold buildMask buildMaskFun
      rw [take_zip_eq]]
  · intro hne out
    unfold process_signal_eq
    by_cases hemp : cfgs.isEmpty
    · rw [if_pos hemp]
      exact fun hc => Except.noConfusion hc
    · rw [if_neg hemp, if_pos hne]
      exact fun hc => Except.noConfusion hc

/-- C1 witness: with one slider and two gains the equalizer computes the
same value as with the truncated gain list, and the validating caller
refuses to return a result. -/
theorem C1_length_mismatch_amended_witness :
    apply_multi_band_equalizer [2] [⟨"a", [(0, 1)]⟩] [1, 5] 2 =
      apply_multi_band_equalizer [2] [⟨"a", [(0, 1)]⟩]
        (([1, 5] : List ℚ).take ([⟨"a", [(0, 1)]⟩] : List SliderConfig).length) 2 ∧
    ∀ out, process_signal_eq [2] [⟨"a", [(0, 1)]⟩] [1, 5] 2 ≠ Except.ok out :=
  ⟨(C1_length_mismatch_amended [2] [⟨"a", [(0, 1)]⟩] [1, 5] 2).1,
    (C1_length_mismatch_amended [2] [⟨"a", [(0, 1)]⟩] [1, 5] 2).2.2 (by norm_num)⟩

/-- C1 counterexample: calling the equalizer directly with 1 slider and 2
gains does not fail — it returns the computed value `[1]`, identical to the
call with the silently truncated gain list `[1]` (the extra gain `5` is
dropped). -/
theorem C1_no_validation_counterexample :
    apply_multi_band_equalizer [2] [⟨"a", [(0, 1)]⟩] [1, 5] 2 = [1] ∧
    apply_multi_band_equalizer [2] [⟨"a", [(0, 1)]⟩] [1, 5] 2 =
      apply_multi_band_equalizer [2] [⟨"a", [(0, 1)]⟩] [1] 2 := by
  have h1 := apply_eval_single [5]
  have h2 := apply_eval_single []
  exact ⟨h1, h1.trans h2.symm⟩

theorem length_hanning (M : ℕ) : (hanning M).length = M := by
  unfold hanning
  by_cases h : M = 1
  · rw [if_pos h, h]
    rfl
  · rw [if_neg h]
    simp

theorem fftLen_pow (p : ℕ) : fftLen (2 ^ p) = 2 ^ p := by
  by_cases h : 2 ^ p ≤ 1
  · rw [fftLen, if_pos h]
  · rw [fftLen, if_neg h, nextPow2_pow]

theorem length_spectro_frame (signalP : List ℝ) (W H i : ℕ) (p : ℕ) (hW : W = 2 ^ p)
    (hlen : i * H + W ≤ signalP.length) :
    (spectro_frame signalP W H i).length = W / 2 := by
  unfold spectro_frame
  simp only [List.length_map, List.length_take, length_custom_fft, List.length_zip,
    List.length_drop, length_hanning]
  have h1 : min W (signalP.length - i * H) = W := by omega
  rw [h1, min_self, hW, fftLen_pow]
  have := Nat.div_le_self (2 ^ p) 2
  omega

/-- C8: shape contract of the spectrogram — for window size `W` (a power of
two) and hop size `H > 0` the matrix has `W/2` rows, every row has
`floor((max(N, W) − W)/H) + 1` entries (one per frame), the time axis is
`i·H/sr`, the frequency axis is `j·sr/W` for `j < W/2`, and every frame
column indeed has `W/2` magnitude entries. -/
theorem C8_spectrogram_shape (signal : List ℝ) (W H : ℕ) (sr : ℚ) (p : ℕ)
    (hW : W = 2 ^ p) (hH : 0 < H) :
    (compute_spectrogram signal W H sr).1.length = W / 2 ∧
    (∀ row ∈ (compute_spectrogram signal W H sr).1,
      row.length = (max signal.length W - W) / H + 1) ∧
    (compute_spectrogram signal W H sr).2.1 =
      (List.range ((max signal.length W - W) / H + 1)).map
        (fun i => ((i * H : ℕ) : ℚ) / sr) ∧
    (compute_spectrogram signal W H sr).2.2 =
      (List.range (W / 2)).map (fun j : ℕ => (j : ℚ) * sr / (W : ℚ)) ∧
    ∀ i ≤ (max signal.length W - W) / H,
      (spectro_frame (if signal.length < W then
        signal ++ List.replicate (W - signal.length) 0 else signal) W H i).length =
        W / 2 := by
  have hsigP : (if signal.length < W then signal ++ List.replicate (W - signal.length) 0
      else signal).length = max signal.length W := by
    by_cases h : signal.length < W
    · rw [if_pos h]
      simp
      omega
    · rw [if_neg h]
      omega
  refine ⟨?_, ?_, ?_, ?_, ?_⟩
  · unfold compute_spectrogram
    simp
  · intro row hrow
    unfold compute_spectrogram at hrow
    simp only at hrow
    rcases List.mem_map.mp hrow with ⟨j, hj, rfl⟩
    rw [List.length_map, List.length_range, hsigP]
  · unfold compute_spectrogram
    simp only
    rw [hsigP]
  · unfold compute_spectrogram
    simp only
    apply List.map_congr_left
    intro j hj
    have hjW : 2 * j < W := by
      have := List.mem_range.mp hj
      omega
    unfold fftfreq
    rw [if_pos hjW]
  · intro i hi
    apply length_spectro_frame _ _ _ _ p hW
    rw [hsigP]
    have h1 : (max signal.length W - W) / H * H ≤ max signal.length W - W :=
      Nat.div_mul_le_self _ _
    have h2 : i * H ≤ (max signal.length W - W) / H * H := Nat.mul_le_mul_right H hi
    have h3 : W ≤ max signal.length W := le_max_right _ _
    omega

/-- C8 witness: the spectrogram of a length-6 signal with `W = 4 = 2²`,
`H = 2` has `4/2 = 2` rows with `(6 − 4)/2 + 1 = 2` columns each. -/
theorem C8_spectrogram_shape_witness :
    (compute_spectrogram [1, 0, 1, 0, 1, 0] 4 2 4).1.length = 4 / 2 ∧
    (compute_spectrogram [1, 0, 1, 0, 1, 0] 4 2 4).2.2 =
      (List.range (4 / 2)).map (fun j : ℕ => (j : ℚ) * 4 / ((4 : ℕ) : ℚ)) :=
  ⟨(C8_spectrogram_shape [1, 0, 1, 0, 1, 0] 4 2 4 2 (by norm_num) (by norm_num)).1,
    (C8_spectrogram_shape [1, 0, 1, 0, 1, 0] 4 2 4 2 (by norm_num)
      (by norm_num)).2.2.2.1⟩
